import Mathlib

/-!
Verification of the Telegraf-to-frame grouping converter
(`telemetry/telegraf/convert.go` of grafana/grafana-live).

The converter takes a raw byte batch, decodes it through an external
influx line-protocol parser into metric records, groups the records by
`(metric name, timestamp)` into frames (one `time` column plus one
nullable column per folded field), and returns the frames in first-seen
key order.  External collaborators (the telegraf parser, the
grafana-plugin-sdk `data` package and its value converters, Go's
`time.Time` rendering) are modelled by explicit Lean definitions; the
core grouping/typing engine is translated from the Go source.
-/

namespace GrafanaLive

/-- Raw bytes of an input batch; opaque to the converter core. -/
abbrev Bytes := List Nat

/-- Values a decoded telegraf field can carry.  The spec's tagged union is
{string, float64, int64, bool}; `uint` models telegraf's uint64 field
values, which the converter has no column type for.  Float payloads are
modelled as rationals. -/
inductive FieldValue where
  | str (s : String)
  | float (x : Rat)
  | int (i : Int)
  | bool (b : Bool)
  | uint (n : Nat)
  deriving DecidableEq, Repr

/-- Semantic column types of the grafana `data` package that this
converter touches (`data.FieldType`). -/
inductive FieldType where
  | string
  | float64
  | int64
  | boolean
  | uint64
  | time
  | nullableString
  | nullableFloat64
  | nullableInt64
  | nullableBool
  | nullableUint64
  | nullableTime
  | unknown
  deriving DecidableEq, Repr

/-- `data.FieldType.NullableType()`: widen a type to its nullable variant. -/
def FieldType.nullableType : FieldType → FieldType
  | .string => .nullableString
  | .float64 => .nullableFloat64
  | .int64 => .nullableInt64
  | .boolean => .nullableBool
  | .uint64 => .nullableUint64
  | .time => .nullableTime
  | t => t

/-- Modelled from the spec: the internal `frameutil.FieldTypeFor` helper
(its source is not under `src/`).  It maps each tagged-union case of a
field value to its semantic type; spec section 3 lists the union
{string, float64, int64, bool}.  A uint64 value (outside the spec's
union) gets the uint64 type, for which `extend` has no converter. -/
def fieldTypeFor : FieldValue → FieldType
  | .str _ => .string
  | .float _ => .float64
  | .int _ => .int64
  | .bool _ => .boolean
  | .uint _ => .uint64

/-- One typed cell stored in a column. -/
inductive Cell where
  | str (s : String)
  | float (x : Rat)
  | int (i : Int)
  | bool (b : Bool)
  | time (t : Nat)
  deriving DecidableEq, Repr

/-- Errors `Convert` can surface, one constructor per `fmt.Errorf` site of
the source (parse failure, unknown field type, missing converter for a
resolved type, converter failure), plus the distinguished type-conflict
fault that the spec requires of the option-enabled converter. -/
inductive ConvErr where
  | parse (msg : String)
  | unknownType
  | noConverter (key : String) (t : FieldType)
  | convertFail (msg : String)
  | typeConflict (key : String)
  deriving DecidableEq, Repr

/-- Decimal digits of `n`, least significant first, driven by explicit
fuel so that the definition is structural and kernel-reducible. -/
def digitsRev : Nat → Nat → List Nat
  | 0, _ => []
  | _ + 1, 0 => []
  | fuel + 1, n + 1 => ((n + 1) % 10) :: digitsRev fuel ((n + 1) / 10)

/-- Modelled rendering of Go's `time.Time.String()`: an injective,
underscore-free decimal rendering of the instant (instants are modelled
as nanosecond counts).  Only injectivity and the absence of the `_`
separator matter to the grouping key. -/
def timeString (t : Nat) : String :=
  ⟨((digitsRev t t).map Nat.digitChar).reverse⟩

/-- A decoded metric record as handed over by the external telegraf
parser: name, timestamp, ordered tag set, ordered field set. -/
structure Metric where
  name : String
  time : Nat
  tags : List (String × String)
  fields : List (String × FieldValue)
  deriving DecidableEq, Repr

/-- `getFrameKey`: each unique metric frame is identified by name and
time (`m.Name() + "_" + m.Time().String()`). -/
def getFrameKey (m : Metric) : String :=
  m.name ++ "_" ++ timeString m.time

/-- A column under construction (`data.Field`): name, semantic type, tag
labels, and its cells (`none` is a null entry). -/
structure Column where
  name : String
  typ : FieldType
  labels : List (String × String)
  values : List (Option Cell)
  deriving DecidableEq, Repr

instance : Inhabited Column := ⟨⟨"", .unknown, [], []⟩⟩

/-- An in-progress frame (`metricFrame`): its name key and its columns. -/
structure MetricFrame where
  key : String
  fields : List Column
  deriving DecidableEq, Repr

instance : Inhabited MetricFrame := ⟨⟨"", []⟩⟩

/-- The seeded time column of a fresh frame: length 1, holding the
record's timestamp, no labels. -/
def timeCol (t : Nat) : Column :=
  ⟨"time", .time, [], [some (.time t)]⟩

/-- `newMetricFrame`: a new frame of length 1 whose single column is the
`time` column seeded from the record. -/
def newMetricFrame (m : Metric) : MetricFrame :=
  ⟨m.name, [timeCol m.time]⟩

/-- Render a value as a string (Go `fmt.Sprintf("%v", v)`), used by the
any-to-string converter. -/
def FieldValue.render : FieldValue → String
  | .str s => s
  | .float x => toString x
  | .int i => toString i
  | .bool b => toString b
  | .uint n => toString n

/-- Modelled external converter `converters.AnyToNullableString`:
string passthrough (any value renders to a string, never fails). -/
def anyToNullableString (v : FieldValue) : Except String (Option Cell) :=
  .ok (some (.str v.render))

/-- Modelled external converter `converters.JSONValueToNullableFloat64`:
numeric passthrough (floats and integers), parse for strings, failure
otherwise. -/
def jsonValueToNullableFloat64 (v : FieldValue) : Except String (Option Cell) :=
  match v with
  | .float x => .ok (some (.float x))
  | .int i => .ok (some (.float (i : Rat)))
  | .str s =>
    match s.toInt? with
    | some i => .ok (some (.float (i : Rat)))
    | none => .error ("could not parse " ++ s ++ " as float")
  | _ => .error "value is not a float"

/-- Modelled external converter `converters.JSONValueToNullableInt64`:
integer passthrough, parse for strings, failure otherwise. -/
def jsonValueToNullableInt64 (v : FieldValue) : Except String (Option Cell) :=
  match v with
  | .int i => .ok (some (.int i))
  | .str s =>
    match s.toInt? with
    | some i => .ok (some (.int i))
    | none => .error ("could not parse " ++ s ++ " as int")
  | _ => .error "value is not an int"

/-- Modelled external converter `converters.BoolToNullableBool`:
boolean passthrough, failure otherwise. -/
def boolToNullableBool (v : FieldValue) : Except String (Option Cell) :=
  match v with
  | .bool b => .ok (some (.bool b))
  | _ => .error "value is not a bool"

/-- The converter-selection switch of `extend`: the four nullable cases
get their fixed converter, everything else falls to the default branch
(no converter). -/
def converterFor : FieldType → Option (FieldValue → Except String (Option Cell))
  | .nullableString => some anyToNullableString
  | .nullableFloat64 => some jsonValueToNullableFloat64
  | .nullableBool => some boolToNullableBool
  | .nullableInt64 => some jsonValueToNullableInt64
  | _ => none

/-- The per-field body of `extend`'s loop: derive the semantic type from
the value, reject unknown types, widen to nullable, pick the converter,
convert, and build the length-1 column carrying the record's tags as
labels. -/
def colOf (tags : List (String × String)) (f : String × FieldValue) :
    Except ConvErr Column :=
  let ft := fieldTypeFor f.2
  if ft = .unknown then .error .unknownType
  else
    let ftn := ft.nullableType
    match converterFor ftn with
    | none => .error (.noConverter f.1 ftn)
    | some conv =>
      match conv f.2 with
      | .error e => .error (.convertFail e)
      | .ok v => .ok ⟨f.1, ftn, tags, [v]⟩

/-- Sequential effectful map over a list in the `Except` monad: runs the
Go loop body left to right and aborts on the first error. -/
def mapME (g : α → Except ε β) : List α → Except ε (List β)
  | [] => .ok []
  | a :: as =>
    match g a with
    | .error e => .error e
    | .ok b =>
      match mapME g as with
      | .error e => .error e
      | .ok bs => .ok (b :: bs)

/-- `metricFrame.extend`: fold one record's fields into the frame,
appending one freshly built length-1 column per field (the Go loop
appends columns one by one; an aborted loop's partial mutation is never
observed because `Convert` drops the whole batch on error). -/
def MetricFrame.extend (s : MetricFrame) (m : Metric) :
    Except ConvErr MetricFrame :=
  match mapME (colOf m.tags) m.fields with
  | .error e => .error e
  | .ok cols => .ok ⟨s.key, s.fields ++ cols⟩

/-- Association-list lookup, the model of a Go `map[string]V` read. -/
def lookupA {α : Type} : List (String × α) → String → Option α
  | [], _ => none
  | (k', v) :: rest, k => if k' = k then some v else lookupA rest k

/-- Association-list in-place update, the model of a Go map write to an
existing key. -/
def updateA {α : Type} : List (String × α) → String → α → List (String × α)
  | [], _, _ => []
  | (k', v') :: rest, k, v =>
    if k' = k then (k', v) :: rest else (k', v') :: updateA rest k v

/-- One iteration of `Convert`'s record loop: look the record's key up,
extend the existing frame or create and extend a fresh one.  The Go
`map[string]*metricFrame` plus the parallel `frameKeyOrder` slice are
modelled as one insertion-ordered association list. -/
def foldInto (acc : List (String × MetricFrame)) (m : Metric) :
    Except ConvErr (List (String × MetricFrame)) :=
  match lookupA acc (getFrameKey m) with
  | some frame =>
    match frame.extend m with
    | .error e => .error e
    | .ok fr => .ok (updateA acc (getFrameKey m) fr)
  | none =>
    match (newMetricFrame m).extend m with
    | .error e => .error e
    | .ok fr => .ok (acc ++ [(getFrameKey m, fr)])

/-- `Convert`'s record loop over the decoded batch. -/
def convertLoop : List Metric → List (String × MetricFrame) →
    Except ConvErr (List (String × MetricFrame))
  | [], acc => .ok acc
  | m :: rest, acc =>
    match foldInto acc m with
    | .error e => .error e
    | .ok acc' => convertLoop rest acc'

/-- The record-level part of `Convert`: run the loop and emit the frames
in first-seen key order (the association list is insertion ordered, so
mapping out its values is the `frameKeyOrder` iteration). -/
def convertMetrics (ms : List Metric) : Except ConvErr (List MetricFrame) :=
  match convertLoop ms [] with
  | .error e => .error e
  | .ok acc => .ok (acc.map Prod.snd)

/-- The converter: holds the external parser installed by
`NewConverter` (modelled as a function from bytes to records). -/
structure Converter where
  parser : Bytes → Except String (List Metric)

/-- `NewConverter` wires an influx parser into a fresh converter. -/
def NewConverter (p : Bytes → Except String (List Metric)) : Converter :=
  ⟨p⟩

/-- `Converter.Convert`: parse the body, then group; mirrors Go's
two-value return `([]telemetry.FrameWrapper, error)` as a pair of
options. -/
def Converter.Convert (c : Converter) (body : Bytes) :
    Option (List MetricFrame) × Option ConvErr :=
  match c.parser body with
  | .error e => (none, some (.parse e))
  | .ok ms =>
    match convertMetrics ms with
    | .error e => (none, some e)
    | .ok frames => (some frames, none)

/-! ### Helper notions used by the theorems -/

/-- Value of an `Except`, with a fallback for the error case. -/
def exOr {ε α : Type} (e : Except ε α) (d : α) : α :=
  match e with
  | .ok a => a
  | .error _ => d

/-- The columns a single record contributes to its frame (its converted
fields, in order), read off a successful conversion. -/
def colsOfRec (m : Metric) : List Column :=
  exOr (mapME (colOf m.tags) m.fields) []

/-- Records of a batch whose frame key is `k`, in input order. -/
def recordsFor (ms : List Metric) (k : String) : List Metric :=
  ms.filter (fun m => getFrameKey m = k)

/-- First record of a batch carrying frame key `k`. -/
def firstWith (ms : List Metric) (k : String) : Option Metric :=
  (recordsFor ms k).head?

/-- All field columns accumulated under key `k` over a batch. -/
def specCols (ms : List Metric) (k : String) : List Column :=
  ((recordsFor ms k).map colsOfRec).flatten

/-- Closed form of the frame the record loop builds for key `k`: named
after the first record with that key, time column seeded from it, then
the folded field columns of every record sharing the key. -/
def specFrame (ms : List Metric) (k : String) : Option MetricFrame :=
  (firstWith ms k).map (fun m0 => ⟨m0.name, timeCol m0.time :: specCols ms k⟩)

/-- Append a key to the order list when unseen (the `frameKeyOrder`
update of the loop). -/
def insertKey (acc : List String) (k : String) : List String :=
  if k ∈ acc then acc else acc ++ [k]

/-- Keys of a batch in first-seen order. -/
def firstSeen (ks : List String) : List String :=
  ks.foldl insertKey []

/-! ### Separator strings: the frame key determines name and time -/

theorem sep_inj : ∀ (u v x y : List Char), '_' ∉ u → '_' ∉ v →
    u ++ '_' :: x = v ++ '_' :: y → u = v ∧ x = y := by
  intro u
  induction u with
  | nil =>
    intro v x y _ hv h
    cases v with
    | nil =>
      simp only [List.nil_append, List.cons.injEq] at h
      exact ⟨rfl, h.2⟩
    | cons c v' =>
      simp only [List.nil_append, List.cons_append, List.cons.injEq] at h
      exact absurd (h.1 ▸ List.mem_cons_self c v') hv
  | cons c u' ih =>
    intro v x y hu hv h
    cases v with
    | nil =>
      simp only [List.cons_append, List.nil_append, List.cons.injEq] at h
      exact absurd (h.1 ▸ List.mem_cons_self c u') hu
    | cons d v' =>
      simp only [List.cons_append, List.cons.injEq] at h
      have hu' : '_' ∉ u' := fun hm => hu (List.mem_cons_of_mem c hm)
      have hv' : '_' ∉ v' := fun hm => hv (List.mem_cons_of_mem d hm)
      obtain ⟨h1, h2⟩ := ih v' x y hu' hv' h.2
      exact ⟨by rw [h.1, h1], h2⟩

theorem append_sep_inj (a b s t : List Char) (hs : '_' ∉ s) (ht : '_' ∉ t)
    (h : a ++ '_' :: s = b ++ '_' :: t) : a = b ∧ s = t := by
  have hrev : s.reverse ++ '_' :: a.reverse = t.reverse ++ '_' :: b.reverse := by
    have := congrArg List.reverse h
    simpa [List.reverse_append] using this
  have hs' : '_' ∉ s.reverse := by rw [List.mem_reverse]; exact hs
  have ht' : '_' ∉ t.reverse := by rw [List.mem_reverse]; exact ht
  obtain ⟨h1, h2⟩ := sep_inj _ _ _ _ hs' ht' hrev
  exact ⟨List.reverse_injective h2, List.reverse_injective h1⟩

theorem digitsRev_lt_ten : ∀ (fuel n d : Nat), d ∈ digitsRev fuel n → d < 10 := by
  intro fuel
  induction fuel with
  | zero => intro n d h; cases h
  | succ fuel ih =>
    intro n d h
    cases n with
    | zero => cases h
    | succ n =>
      simp only [digitsRev] at h
      rcases List.mem_cons.mp h with h1 | h2
      · omega
      · exact ih _ _ h2

/-- Decimal value of a little-endian digit list; inverse of `digitsRev`. -/
def unDigits : List Nat → Nat
  | [] => 0
  | d :: ds => d + 10 * unDigits ds

theorem unDigits_digitsRev : ∀ (fuel n : Nat), n ≤ fuel →
    unDigits (digitsRev fuel n) = n := by
  intro fuel
  induction fuel with
  | zero => intro n h; interval_cases n; rfl
  | succ fuel ih =>
    intro n h
    cases n with
    | zero => rfl
    | succ n =>
      simp only [digitsRev, unDigits]
      rw [ih ((n + 1) / 10) (by omega)]
      omega

theorem map_digitChar_inj : ∀ (l1 l2 : List Nat), (∀ d ∈ l1, d < 10) →
    (∀ d ∈ l2, d < 10) → l1.map Nat.digitChar = l2.map Nat.digitChar → l1 = l2 := by
  have key : ∀ a, a < 10 → ∀ b, b < 10 → Nat.digitChar a = Nat.digitChar b → a = b := by
    decide
  intro l1
  induction l1 with
  | nil => intro l2 _ _ h; cases l2 with
    | nil => rfl
    | cons d l2' => cases h
  | cons d l1' ih =>
    intro l2 h1 h2 h
    cases l2 with
    | nil => cases h
    | cons e l2' =>
      simp only [List.map_cons, List.cons.injEq] at h
      have hd : d = e :=
        key d (h1 d (List.mem_cons_self d l1')) e (h2 e (List.mem_cons_self e l2')) h.1
      have ht : l1' = l2' :=
        ih l2' (fun x hx => h1 x (List.mem_cons_of_mem d hx))
          (fun x hx => h2 x (List.mem_cons_of_mem e hx)) h.2
      rw [hd, ht]

theorem timeString_inj {t1 t2 : Nat} (h : timeString t1 = timeString t2) :
    t1 = t2 := by
  have hd := congrArg String.data h
  simp only [timeString] at hd
  have hrev := List.reverse_injective hd
  have hdig := map_digitChar_inj _ _ (fun d hd' => digitsRev_lt_ten t1 t1 d hd')
    (fun d hd' => digitsRev_lt_ten t2 t2 d hd') hrev
  have h1 := unDigits_digitsRev t1 t1 (Nat.le_refl t1)
  have h2 := unDigits_digitsRev t2 t2 (Nat.le_refl t2)
  rw [← h1, ← h2, hdig]

theorem underscore_notin_timeString (t : Nat) : '_' ∉ (timeString t).data := by
  simp only [timeString]
  intro hmem
  rw [List.mem_reverse, List.mem_map] at hmem
  obtain ⟨d, hd, hc⟩ := hmem
  have hlt := digitsRev_lt_ten t t d hd
  have key : ∀ d, d < 10 → Nat.digitChar d ≠ '_' := by decide
  exact key d hlt hc

theorem getFrameKey_eq_iff (m1 m2 : Metric) :
    getFrameKey m1 = getFrameKey m2 ↔
      m1.name = m2.name ∧ m1.time = m2.time := by
  constructor
  · intro h
    have hd := congrArg String.data h
    simp only [getFrameKey, String.data_append] at hd
    rw [List.append_assoc, List.append_assoc, List.singleton_append,
      List.singleton_append] at hd
    obtain ⟨h1, h2⟩ := append_sep_inj _ _ _ _
      (underscore_notin_timeString m1.time) (underscore_notin_timeString m2.time) hd
    exact ⟨String.ext h1, timeString_inj (String.ext h2)⟩
  · intro ⟨h1, h2⟩
    simp [getFrameKey, h1, h2]

/-! ### Properties of the effectful field loop -/

theorem mapME_ok_cons {α ε β : Type} {g : α → Except ε β} {a : α} {l : List α}
    {bs : List β} (h : mapME g (a :: l) = .ok bs) :
    ∃ b bs', g a = .ok b ∧ mapME g l = .ok bs' ∧ bs = b :: bs' := by
  simp only [mapME] at h
  cases hga : g a with
  | error e => rw [hga] at h; cases h
  | ok b =>
    rw [hga] at h
    cases hml : mapME g l with
    | error e => rw [hml] at h; cases h
    | ok bs' =>
      rw [hml] at h
      injection h with h'
      exact ⟨b, bs', rfl, rfl, h'.symm⟩

theorem mapME_ok_eq_map {α ε β : Type} {g : α → Except ε β} (d : β) :
    ∀ {l : List α} {bs : List β}, mapME g l = .ok bs →
      bs = l.map (fun a => exOr (g a) d) := by
  intro l
  induction l with
  | nil =>
    intro bs h
    simp only [mapME] at h
    injection h with h'
    rw [← h']
    rfl
  | cons a l ih =>
    intro bs h
    obtain ⟨b, bs', hga, hml, hbs⟩ := mapME_ok_cons h
    subst hbs
    simp only [List.map_cons]
    rw [ih hml, hga]
    rfl

theorem mapME_ok_length {α ε β : Type} {g : α → Except ε β} :
    ∀ {l : List α} {bs : List β}, mapME g l = .ok bs → bs.length = l.length := by
  intro l
  induction l with
  | nil =>
    intro bs h
    simp only [mapME] at h
    injection h with h'
    rw [← h']
    rfl
  | cons a l ih =>
    intro bs h
    obtain ⟨b, bs', hga, hml, hbs⟩ := mapME_ok_cons h
    subst hbs
    simp [ih hml]

theorem mapME_ok_mem {α ε β : Type} {g : α → Except ε β} :
    ∀ {l : List α} {bs : List β}, mapME g l = .ok bs →
      ∀ b ∈ bs, ∃ a ∈ l, g a = .ok b := by
  intro l
  induction l with
  | nil =>
    intro bs h b hb
    simp only [mapME] at h
    injection h with h'
    rw [← h'] at hb
    cases hb
  | cons a l ih =>
    intro bs h b hb
    obtain ⟨b', bs', hga, hml, hbs⟩ := mapME_ok_cons h
    subst hbs
    rcases List.mem_cons.mp hb with h1 | h2
    · exact ⟨a, List.mem_cons_self a l, h1 ▸ hga⟩
    · obtain ⟨a', ha', hga'⟩ := ih hml b h2
      exact ⟨a', List.mem_cons_of_mem a ha', hga'⟩

theorem colOf_ok {tags : List (String × String)} {f : String × FieldValue}
    {c : Column} (h : colOf tags f = .ok c) :
    c.name = f.1 ∧ c.typ = (fieldTypeFor f.2).nullableType ∧ c.labels = tags ∧
      c.values.length = 1 ∧
      c.typ ∈ [FieldType.nullableString, FieldType.nullableFloat64,
        FieldType.nullableInt64, FieldType.nullableBool] := by
  obtain ⟨k, v⟩ := f
  cases v with
  | str s =>
    simp only [colOf, fieldTypeFor, FieldType.nullableType, converterFor,
      anyToNullableString, reduceCtorEq, reduceIte] at h
    injection h with h'
    rw [← h']
    simp [fieldTypeFor, FieldType.nullableType]
  | float x =>
    simp only [colOf, fieldTypeFor, FieldType.nullableType, converterFor,
      jsonValueToNullableFloat64, reduceCtorEq, reduceIte] at h
    injection h with h'
    rw [← h']
    simp [fieldTypeFor, FieldType.nullableType]
  | int i =>
    simp only [colOf, fieldTypeFor, FieldType.nullableType, converterFor,
      jsonValueToNullableInt64, reduceCtorEq, reduceIte] at h
    injection h with h'
    rw [← h']
    simp [fieldTypeFor, FieldType.nullableType]
  | bool b =>
    simp only [colOf, fieldTypeFor, FieldType.nullableType, converterFor,
      boolToNullableBool, reduceCtorEq, reduceIte] at h
    injection h with h'
    rw [← h']
    simp [fieldTypeFor, FieldType.nullableType]
  | uint n =>
    simp only [colOf, fieldTypeFor, FieldType.nullableType, converterFor,
      reduceCtorEq, reduceIte] at h

theorem extend_ok {s : MetricFrame} {m : Metric} {fr : MetricFrame}
    (h : s.extend m = .ok fr) :
    ∃ cols, mapME (colOf m.tags) m.fields = .ok cols ∧
      fr = ⟨s.key, s.fields ++ cols⟩ := by
  unfold MetricFrame.extend at h
  cases hc : mapME (colOf m.tags) m.fields with
  | error e => rw [hc] at h; cases h
  | ok cols =>
    rw [hc] at h
    injection h with h'
    exact ⟨cols, rfl, h'.symm⟩

theorem colsOfRec_eq {m : Metric} {cols : List Column}
    (h : mapME (colOf m.tags) m.fields = .ok cols) : colsOfRec m = cols := by
  unfold colsOfRec
  rw [h]
  rfl

/-! ### Association-list facts (the Go map plus its key-order slice) -/

theorem lookupA_mem_keys {α : Type} :
    ∀ {l : List (String × α)} {k : String} {v : α},
      lookupA l k = some v → k ∈ l.map Prod.fst := by
  intro l
  induction l with
  | nil => intro k v h; cases h
  | cons p rest ih =>
    intro k v h
    obtain ⟨k', v'⟩ := p
    simp only [lookupA] at h
    by_cases hk : k' = k
    · simp [hk]
    · rw [if_neg hk] at h
      simp only [List.map_cons, List.mem_cons]
      exact Or.inr (ih h)

theorem lookupA_append {α : Type} :
    ∀ (l1 l2 : List (String × α)) (k : String),
      lookupA (l1 ++ l2) k = (lookupA l1 k).or (lookupA l2 k) := by
  intro l1
  induction l1 with
  | nil => intro l2 k; simp [lookupA]
  | cons p rest ih =>
    intro l2 k
    obtain ⟨k', v'⟩ := p
    simp only [List.cons_append, lookupA]
    by_cases hk : k' = k
    · rw [if_pos hk, if_pos hk]
      rfl
    · rw [if_neg hk, if_neg hk]
      exact ih l2 k

theorem updateA_map_fst {α : Type} :
    ∀ (l : List (String × α)) (k : String) (v : α),
      (updateA l k v).map Prod.fst = l.map Prod.fst := by
  intro l
  induction l with
  | nil => intro k v; rfl
  | cons p rest ih =>
    intro k v
    obtain ⟨k', v'⟩ := p
    simp only [updateA]
    by_cases hk : k' = k
    · rw [if_pos hk]
      simp
    · rw [if_neg hk]
      simp [ih]

theorem lookupA_updateA_self {α : Type} :
    ∀ {l : List (String × α)} {k : String} {v0 : α} (v : α),
      lookupA l k = some v0 → lookupA (updateA l k v) k = some v := by
  intro l
  induction l with
  | nil => intro k v0 v h; cases h
  | cons p rest ih =>
    intro k v0 v h
    obtain ⟨k', v'⟩ := p
    simp only [lookupA, updateA] at h ⊢
    by_cases hk : k' = k
    · rw [if_pos hk]
      simp only [lookupA]
      rw [if_pos hk]
    · rw [if_neg hk] at h
      rw [if_neg hk]
      simp only [lookupA]
      rw [if_neg hk]
      exact ih v h

theorem lookupA_updateA_ne {α : Type} :
    ∀ (l : List (String × α)) {k k' : String} (v : α), k' ≠ k →
      lookupA (updateA l k v) k' = lookupA l k' := by
  intro l
  induction l with
  | nil => intro k k' v _; rfl
  | cons p rest ih =>
    intro k k' v hne
    obtain ⟨k0, v0⟩ := p
    simp only [updateA]
    by_cases hk : k0 = k
    · rw [if_pos hk]
      simp only [lookupA]
      have : ¬ k0 = k' := by rw [hk]; exact fun h => hne h.symm
      rw [if_neg this, if_neg this]
    · rw [if_neg hk]
      simp only [lookupA]
      by_cases h0 : k0 = k'
      · rw [if_pos h0, if_pos h0]
      · rw [if_neg h0, if_neg h0]
        exact ih v hne

theorem mem_lookupA {α : Type} :
    ∀ {l : List (String × α)} {k : String} {v : α},
      (l.map Prod.fst).Nodup → (k, v) ∈ l → lookupA l k = some v := by
  intro l
  induction l with
  | nil => intro k v _ h; cases h
  | cons p rest ih =>
    intro k v hnd h
    obtain ⟨k', v'⟩ := p
    simp only [List.map_cons, List.nodup_cons] at hnd
    rcases List.mem_cons.mp h with h1 | h2
    · injection h1 with e1 e2
      simp only [lookupA]
      rw [if_pos e1.symm, e2]
    · have hk : k' ≠ k := by
        intro he
        apply hnd.1
        subst he
        exact List.mem_map.mpr ⟨(k', v), h2, rfl⟩
      simp only [lookupA]
      rw [if_neg hk]
      exact ih hnd.2 h2

/-! ### First-seen key order -/

theorem mem_foldl_insertKey :
    ∀ (l : List String) (init : List String) (k : String),
      k ∈ l.foldl insertKey init ↔ k ∈ init ∨ k ∈ l := by
  intro l
  induction l with
  | nil => intro init k; simp
  | cons a l ih =>
    intro init k
    simp only [List.foldl_cons, List.mem_cons]
    rw [ih]
    unfold insertKey
    by_cases ha : a ∈ init
    · rw [if_pos ha]
      have hka : k = a → k ∈ init := fun h => h ▸ ha
      tauto
    · rw [if_neg ha]
      simp only [List.mem_append, List.mem_singleton]
      tauto

theorem firstSeen_mem (ks : List String) (k : String) :
    k ∈ firstSeen ks ↔ k ∈ ks := by
  unfold firstSeen
  rw [mem_foldl_insertKey]
  simp

theorem foldl_insertKey_nodup :
    ∀ (l init : List String), init.Nodup → (l.foldl insertKey init).Nodup := by
  intro l
  induction l with
  | nil => intro init h; exact h
  | cons a l ih =>
    intro init h
    simp only [List.foldl_cons]
    apply ih
    unfold insertKey
    by_cases ha : a ∈ init
    · rwa [if_pos ha]
    · rw [if_neg ha, List.nodup_append]
      refine ⟨h, List.nodup_singleton a, ?_⟩
      intro x hx hxa
      rw [List.mem_singleton] at hxa
      exact ha (hxa ▸ hx)

theorem firstSeen_nodup (ks : List String) : (firstSeen ks).Nodup :=
  foldl_insertKey_nodup ks [] List.nodup_nil

theorem firstSeen_append_single (ks : List String) (k : String) :
    firstSeen (ks ++ [k]) = insertKey (firstSeen ks) k := by
  unfold firstSeen
  rw [List.foldl_append]
  rfl

/-! ### Appending one record to the processed prefix -/

theorem recordsFor_append_single (ms : List Metric) (m : Metric) (k : String) :
    recordsFor (ms ++ [m]) k =
      recordsFor ms k ++ (if getFrameKey m = k then [m] else []) := by
  unfold recordsFor
  rw [List.filter_append]
  congr 1
  by_cases h : getFrameKey m = k
  · simp [h]
  · simp [h]

theorem specCols_append_single (ms : List Metric) (m : Metric) (k : String) :
    specCols (ms ++ [m]) k =
      specCols ms k ++ (if getFrameKey m = k then colsOfRec m else []) := by
  unfold specCols
  rw [recordsFor_append_single, List.map_append, List.flatten_append]
  congr 1
  by_cases h : getFrameKey m = k <;> simp [h]

theorem firstWith_append_single (ms : List Metric) (m : Metric) (k : String) :
    firstWith (ms ++ [m]) k =
      (firstWith ms k).or (if getFrameKey m = k then some m else none) := by
  unfold firstWith
  rw [recordsFor_append_single, List.head?_append]
  congr 1
  by_cases h : getFrameKey m = k <;> simp [h]

theorem firstWith_none_not_mem {ms : List Metric} {k : String}
    (h : firstWith ms k = none) : k ∉ ms.map getFrameKey := by
  unfold firstWith at h
  rw [List.head?_eq_none_iff] at h
  intro hmem
  obtain ⟨m', hm', hk⟩ := List.mem_map.mp hmem
  have : m' ∈ recordsFor ms k := by
    unfold recordsFor
    rw [List.mem_filter]
    exact ⟨hm', by simp [hk]⟩
  rw [h] at this
  cases this

/-! ### The loop invariant of `Convert`'s record loop -/

theorem foldInto_inv {processed : List Metric}
    {acc acc' : List (String × MetricFrame)} {m : Metric}
    (hl : ∀ k, lookupA acc k = specFrame processed k)
    (ho : acc.map Prod.fst = firstSeen (processed.map getFrameKey))
    (hstep : foldInto acc m = .ok acc') :
    (∀ k, lookupA acc' k = specFrame (processed ++ [m]) k) ∧
      acc'.map Prod.fst = firstSeen ((processed ++ [m]).map getFrameKey) := by
  unfold foldInto at hstep
  cases hlk : lookupA acc (getFrameKey m) with
  | some fr =>
    rw [hlk] at hstep
    simp only [] at hstep
    cases hx : fr.extend m with
    | error e => rw [hx] at hstep; cases hstep
    | ok fr' =>
      rw [hx] at hstep
      injection hstep with hacc'
      obtain ⟨cols, hc, hfr'⟩ := extend_ok hx
      have hspec := hl (getFrameKey m)
      rw [hlk] at hspec
      unfold specFrame at hspec
      cases hfw : firstWith processed (getFrameKey m) with
      | none => rw [hfw] at hspec; cases hspec
      | some m0 =>
        rw [hfw, Option.map_some'] at hspec
        injection hspec with hfr
        constructor
        · intro k
          rw [← hacc']
          by_cases hk : k = getFrameKey m
          · subst hk
            rw [lookupA_updateA_self fr' hlk]
            unfold specFrame
            rw [firstWith_append_single, hfw, specCols_append_single,
              if_pos rfl]
            show _ = some _
            rw [hfr', hfr]
            rw [colsOfRec_eq hc]
            simp
          · rw [lookupA_updateA_ne _ _ (fun h => hk h)]
            rw [hl k]
            unfold specFrame
            rw [firstWith_append_single, specCols_append_single,
              if_neg (fun h => hk h.symm), if_neg (fun h => hk h.symm)]
            simp
        · rw [← hacc', updateA_map_fst, ho, List.map_append,
            List.map_singleton, firstSeen_append_single]
          unfold insertKey
          rw [if_pos]
          rw [← ho]
          exact lookupA_mem_keys hlk
  | none =>
    rw [hlk] at hstep
    simp only [] at hstep
    cases hx : (newMetricFrame m).extend m with
    | error e => rw [hx] at hstep; cases hstep
    | ok fr' =>
      rw [hx] at hstep
      injection hstep with hacc'
      obtain ⟨cols, hc, hfr'⟩ := extend_ok hx
      have hnone : specFrame processed (getFrameKey m) = none := by
        rw [← hl, hlk]
      unfold specFrame at hnone
      rw [Option.map_eq_none'] at hnone
      have hrec : recordsFor processed (getFrameKey m) = [] := by
        unfold firstWith at hnone
        rwa [List.head?_eq_none_iff] at hnone
      have hknotin : getFrameKey m ∉ processed.map getFrameKey :=
        firstWith_none_not_mem hnone
      constructor
      · intro k
        rw [← hacc', lookupA_append]
        by_cases hk : k = getFrameKey m
        · subst hk
          rw [hlk, Option.none_or]
          have hone : lookupA [(getFrameKey m, fr')] (getFrameKey m) = some fr' := by
            simp [lookupA]
          rw [hone]
          unfold specFrame
          rw [firstWith_append_single, hnone, Option.none_or,
            specCols_append_single, if_pos rfl]
          have hsc : specCols processed (getFrameKey m) = [] := by
            unfold specCols
            rw [hrec]
            rfl
          rw [hsc, hfr', colsOfRec_eq hc]
          simp [newMetricFrame, timeCol]
        · have hone : lookupA [(getFrameKey m, fr')] k = none := by
            simp only [lookupA]
            rw [if_neg (fun h => hk h.symm)]
          rw [hone, Option.or_none, hl k]
          unfold specFrame
          rw [firstWith_append_single, specCols_append_single,
            if_neg (fun h => hk h.symm), if_neg (fun h => hk h.symm)]
          simp
      · rw [← hacc', List.map_append, ho, List.map_append,
          List.map_singleton, List.map_singleton, firstSeen_append_single]
        unfold insertKey
        rw [if_neg]
        intro hmem
        rw [firstSeen_mem] at hmem
        exact hknotin hmem

theorem convertLoop_inv :
    ∀ (rest processed : List Metric) (acc res : List (String × MetricFrame)),
      (∀ k, lookupA acc k = specFrame processed k) →
      acc.map Prod.fst = firstSeen (processed.map getFrameKey) →
      convertLoop rest acc = .ok res →
      (∀ k, lookupA res k = specFrame (processed ++ rest) k) ∧
        res.map Prod.fst = firstSeen ((processed ++ rest).map getFrameKey) := by
  intro rest
  induction rest with
  | nil =>
    intro processed acc res hl ho hres
    simp only [convertLoop] at hres
    injection hres with h'
    subst h'
    simpa using ⟨hl, ho⟩
  | cons m rest ih =>
    intro processed acc res hl ho hres
    simp only [convertLoop] at hres
    cases hstep : foldInto acc m with
    | error e => rw [hstep] at hres; cases hres
    | ok acc' =>
      rw [hstep] at hres
      simp only [] at hres
      obtain ⟨hl', ho'⟩ := foldInto_inv hl ho hstep
      have := ih (processed ++ [m]) acc' res hl' ho' hres
      simpa [List.append_assoc] using this

/-- Specialization to a full run from the empty state. -/
theorem convertLoop_spec {ms : List Metric}
    {res : List (String × MetricFrame)} (h : convertLoop ms [] = .ok res) :
    (∀ k, lookupA res k = specFrame ms k) ∧
      res.map Prod.fst = firstSeen (ms.map getFrameKey) := by
  have := convertLoop_inv ms [] [] res (fun k => rfl) rfl h
  simpa using this

/-- A successful run converted every record's fields successfully. -/
theorem convertLoop_ok_extend :
    ∀ (rest : List Metric) (acc res : List (String × MetricFrame)),
      convertLoop rest acc = .ok res →
      ∀ m ∈ rest, ∃ cols, mapME (colOf m.tags) m.fields = .ok cols := by
  intro rest
  induction rest with
  | nil => intro acc res _ m hm; cases hm
  | cons m0 rest ih =>
    intro acc res hres m hm
    simp only [convertLoop] at hres
    cases hstep : foldInto acc m0 with
    | error e => rw [hstep] at hres; cases hres
    | ok acc' =>
      rw [hstep] at hres
      simp only [] at hres
      rcases List.mem_cons.mp hm with h1 | h2
      · subst h1
        unfold foldInto at hstep
        cases hlk : lookupA acc (getFrameKey m) with
        | some fr =>
          rw [hlk] at hstep
          simp only [] at hstep
          cases hx : fr.extend m with
          | error e => rw [hx] at hstep; cases hstep
          | ok fr' =>
            obtain ⟨cols, hc, _⟩ := extend_ok hx
            exact ⟨cols, hc⟩
        | none =>
          rw [hlk] at hstep
          simp only [] at hstep
          cases hx : (newMetricFrame m).extend m with
          | error e => rw [hx] at hstep; cases hstep
          | ok fr' =>
            obtain ⟨cols, hc, _⟩ := extend_ok hx
            exact ⟨cols, hc⟩
      · exact ih acc' res hres m h2

/-- Membership form of the run characterization: every produced frame is
the closed-form frame of its first-seen key. -/
theorem convertLoop_frames {ms : List Metric}
    {res : List (String × MetricFrame)} (h : convertLoop ms [] = .ok res) :
    ∀ fr ∈ res.map Prod.snd, ∃ k m0,
      firstWith ms k = some m0 ∧
      fr = ⟨m0.name, timeCol m0.time :: specCols ms k⟩ := by
  intro fr hfr
  obtain ⟨⟨k, fr'⟩, hmem, hsnd⟩ := List.mem_map.mp hfr
  obtain ⟨hl, ho⟩ := convertLoop_spec h
  have hnd : (res.map Prod.fst).Nodup := by
    rw [ho]
    exact firstSeen_nodup _
  have hlu : lookupA res k = some fr' := mem_lookupA hnd hmem
  rw [hl k] at hlu
  unfold specFrame at hlu
  cases hfw : firstWith ms k with
  | none => rw [hfw] at hlu; cases hlu
  | some m0 =>
    rw [hfw, Option.map_some'] at hlu
    injection hlu with hlu'
    exact ⟨k, m0, hfw, by rw [← hsnd, ← hlu']⟩

/-! ### Further helpers for the claim theorems -/

instance {ε α : Type} [DecidableEq ε] [DecidableEq α] :
    DecidableEq (Except ε α) := fun a b =>
  match a, b with
  | .error e, .error f =>
    if h : e = f then .isTrue (by rw [h])
    else .isFalse (fun hh => by cases hh; exact h rfl)
  | .ok x, .ok y =>
    if h : x = y then .isTrue (by rw [h])
    else .isFalse (fun hh => by cases hh; exact h rfl)
  | .error _, .ok _ => .isFalse (fun h => by cases h)
  | .ok _, .error _ => .isFalse (fun h => by cases h)

theorem mapME_ok_forall {α ε β : Type} {g : α → Except ε β} :
    ∀ {l : List α} {bs : List β}, mapME g l = .ok bs →
      ∀ a ∈ l, ∃ b, g a = .ok b := by
  intro l
  induction l with
  | nil => intro bs _ a ha; cases ha
  | cons a0 l ih =>
    intro bs h a ha
    obtain ⟨b, bs', hga, hml, _⟩ := mapME_ok_cons h
    rcases List.mem_cons.mp ha with h1 | h2
    · exact ⟨b, h1 ▸ hga⟩
    · exact ih hml a h2

theorem convertLoop_append : ∀ (l1 l2 : List Metric)
    (acc : List (String × MetricFrame)),
    convertLoop (l1 ++ l2) acc =
      match convertLoop l1 acc with
      | .error e => .error e
      | .ok a => convertLoop l2 a := by
  intro l1
  induction l1 with
  | nil => intro l2 acc; rfl
  | cons m l1 ih =>
    intro l2 acc
    simp only [List.cons_append, convertLoop]
    cases hf : foldInto acc m with
    | error e => rfl
    | ok acc' => exact ih l2 acc'

theorem convertMetrics_eq_ok {ms : List Metric}
    {res : List (String × MetricFrame)} (h : convertLoop ms [] = .ok res) :
    convertMetrics ms = .ok (res.map Prod.snd) := by
  unfold convertMetrics
  rw [h]

theorem convertMetrics_ok_inv {ms : List Metric} {frames : List MetricFrame}
    (h : convertMetrics ms = .ok frames) :
    ∃ res, convertLoop ms [] = .ok res ∧ frames = res.map Prod.snd := by
  unfold convertMetrics at h
  cases hres : convertLoop ms [] with
  | error e => rw [hres] at h; cases h
  | ok res =>
    rw [hres] at h
    simp only [] at h
    injection h with h'
    exact ⟨res, rfl, h'.symm⟩

theorem res_entry_shape {ms : List Metric} {res : List (String × MetricFrame)}
    (h : convertLoop ms [] = .ok res) {k : String} {fr : MetricFrame}
    (hmem : (k, fr) ∈ res) :
    ∃ m0, firstWith ms k = some m0 ∧
      fr = ⟨m0.name, timeCol m0.time :: specCols ms k⟩ := by
  obtain ⟨hl, ho⟩ := convertLoop_spec h
  have hnd : (res.map Prod.fst).Nodup := by
    rw [ho]
    exact firstSeen_nodup _
  have hlu := mem_lookupA hnd hmem
  rw [hl k] at hlu
  unfold specFrame at hlu
  cases hfw : firstWith ms k with
  | none => rw [hfw] at hlu; cases hlu
  | some m0 =>
    rw [hfw, Option.map_some'] at hlu
    injection hlu with hlu'
    exact ⟨m0, rfl, hlu'.symm⟩

theorem specCols_mem {ms : List Metric} {res : List (String × MetricFrame)}
    (h : convertLoop ms [] = .ok res) {k : String} {c : Column}
    (hc : c ∈ specCols ms k) :
    ∃ m ∈ ms, ∃ f ∈ m.fields, colOf m.tags f = .ok c := by
  unfold specCols at hc
  rw [List.mem_flatten] at hc
  obtain ⟨l, hl, hcl⟩ := hc
  obtain ⟨m, hm, hml⟩ := List.mem_map.mp hl
  have hmms : m ∈ ms := by
    unfold recordsFor at hm
    exact List.mem_of_mem_filter hm
  obtain ⟨cols, hcols⟩ := convertLoop_ok_extend ms [] res h m hmms
  rw [← hml, colsOfRec_eq hcols] at hcl
  obtain ⟨f, hf, hfc⟩ := mapME_ok_mem hcols c hcl
  exact ⟨m, hmms, f, hf, hfc⟩

theorem colsOfRec_names {m : Metric} {cols : List Column}
    (h : mapME (colOf m.tags) m.fields = .ok cols) :
    cols.map Column.name = m.fields.map Prod.fst := by
  rw [mapME_ok_eq_map default h, List.map_map]
  apply List.map_congr_left
  intro f hf
  obtain ⟨c, hc⟩ := mapME_ok_forall h f hf
  simp only [Function.comp]
  rw [hc]
  exact (colOf_ok hc).1

theorem specCols_names {ms : List Metric} {res : List (String × MetricFrame)}
    (h : convertLoop ms [] = .ok res) (k : String) :
    (specCols ms k).map Column.name =
      ((recordsFor ms k).map (fun m => m.fields.map Prod.fst)).flatten := by
  unfold specCols
  rw [List.map_flatten, List.map_map]
  congr 1
  apply List.map_congr_left
  intro m hm
  have hmms : m ∈ ms := by
    unfold recordsFor at hm
    exact List.mem_of_mem_filter hm
  obtain ⟨cols, hcols⟩ := convertLoop_ok_extend ms [] res h m hmms
  simp only [Function.comp]
  rw [colsOfRec_eq hcols]
  exact colsOfRec_names hcols

theorem specCols_length {ms : List Metric} {res : List (String × MetricFrame)}
    (h : convertLoop ms [] = .ok res) (k : String) :
    (specCols ms k).length =
      ((recordsFor ms k).map (fun m => m.fields.length)).sum := by
  unfold specCols
  rw [List.length_flatten, List.map_map]
  congr 1
  apply List.map_congr_left
  intro m hm
  have hmms : m ∈ ms := by
    unfold recordsFor at hm
    exact List.mem_of_mem_filter hm
  obtain ⟨cols, hcols⟩ := convertLoop_ok_extend ms [] res h m hmms
  simp only [Function.comp]
  rw [colsOfRec_eq hcols]
  exact mapME_ok_length hcols

theorem convertMetrics_single {m : Metric} {frames : List MetricFrame}
    (h : convertMetrics [m] = .ok frames) :
    ∃ cols, mapME (colOf m.tags) m.fields = .ok cols ∧
      frames = [⟨m.name, timeCol m.time :: cols⟩] := by
  obtain ⟨res, hres, hframes⟩ := convertMetrics_ok_inv h
  simp only [convertLoop] at hres
  cases hf : foldInto [] m with
  | error e => rw [hf] at hres; cases hres
  | ok acc' =>
    rw [hf] at hres
    simp only [convertLoop] at hres
    injection hres with hres'
    unfold foldInto at hf
    simp only [lookupA] at hf
    unfold MetricFrame.extend at hf
    cases hc : mapME (colOf m.tags) m.fields with
    | error e => rw [hc] at hf; cases hf
    | ok cols =>
      rw [hc] at hf
      simp only [] at hf
      injection hf with hf'
      refine ⟨cols, rfl, ?_⟩
      rw [hframes, ← hres', ← hf']
      simp [newMetricFrame]

/-- Printable name of a semantic type, used by the modelled serializer. -/
def typeName : FieldType → String
  | .string => "string"
  | .float64 => "float64"
  | .int64 => "int64"
  | .boolean => "bool"
  | .uint64 => "uint64"
  | .time => "time"
  | .nullableString => "nullableString"
  | .nullableFloat64 => "nullableFloat64"
  | .nullableInt64 => "nullableInt64"
  | .nullableBool => "nullableBool"
  | .nullableUint64 => "nullableUint64"
  | .nullableTime => "nullableTime"
  | .unknown => "unknown"

/-- Rendering of one cell by the modelled serializer. -/
def serializeCell : Option Cell → String
  | none => "null"
  | some (.str s) => s
  | some (.float x) => toString x
  | some (.int i) => toString i
  | some (.bool b) => toString b
  | some (.time t) => timeString t

/-- Rendering of one column by the modelled serializer. -/
def serializeCol (c : Column) : String :=
  c.name ++ ":" ++ typeName c.typ ++ ":" ++
    String.intercalate "," (c.values.map serializeCell)

/-- Modelled external serialization (`data.FrameToJSON` of the table
library): renders name and columns in their stored order, like the JSON
schema and data arrays of the real serializer. -/
def serializeFrame (fr : MetricFrame) : String :=
  fr.key ++ ";" ++ String.intercalate ";" (fr.fields.map serializeCol)

/-! ### Claim theorems -/

/-- C1: in the default per-time configuration, two decoded records are
folded into the same output table iff their metric names and timestamps
are exactly equal — the frame key `name ++ "_" ++ time` determines and is
determined by the `(name, timestamp)` pair (no tolerance window), so
every distinct pair owns its own table; and in a successful run every
record's key owns a frame of the result. -/
theorem C1_per_time_key :
    (∀ m1 m2 : Metric, getFrameKey m1 = getFrameKey m2 ↔
      (m1.name = m2.name ∧ m1.time = m2.time)) ∧
    (∀ (ms : List Metric) (res : List (String × MetricFrame)),
      convertLoop ms [] = .ok res → ∀ m ∈ ms,
        ∃ fr, lookupA res (getFrameKey m) = some fr) := by
  refine ⟨getFrameKey_eq_iff, ?_⟩
  intro ms res h m hm
  obtain ⟨hl, _⟩ := convertLoop_spec h
  rw [hl]
  unfold specFrame
  cases hfw : firstWith ms (getFrameKey m) with
  | some m0 => exact ⟨_, rfl⟩
  | none =>
    exact absurd (List.mem_map.mpr ⟨m, hm, rfl⟩) (firstWith_none_not_mem hfw)

/-- Witness for C1 at concrete records. -/
theorem C1_per_time_key_witness :
    ((getFrameKey ⟨"m", 5, [], []⟩ = getFrameKey ⟨"m", 6, [], []⟩ ↔
      (("m" : String) = "m" ∧ (5 : Nat) = 6)) ∧
     ∃ fr, lookupA
        [("m_5", (⟨"m", [timeCol 5,
          ⟨"x", .nullableInt64, [], [some (.int 1)]⟩]⟩ : MetricFrame))]
        (getFrameKey ⟨"m", 5, [], [("x", FieldValue.int 1)]⟩) = some fr) :=
  ⟨C1_per_time_key.1 ⟨"m", 5, [], []⟩ ⟨"m", 6, [], []⟩,
   C1_per_time_key.2 [⟨"m", 5, [], [("x", FieldValue.int 1)]⟩]
     [("m_5", ⟨"m", [timeCol 5, ⟨"x", .nullableInt64, [], [some (.int 1)]⟩]⟩)]
     (by decide) ⟨"m", 5, [], [("x", FieldValue.int 1)]⟩ (by decide)⟩

/-- C3: Convert is a pure function of the batch — given the parse result,
the output is exactly the loop's frames in first-seen key order, so a
rerun on the same batch reproduces the identical table sequence and the
position of each table is the first-occurrence position of its group
key, independent of any hashing. -/
theorem C3_order_stability (c : Converter) (body : Bytes) (ms : List Metric)
    (res : List (String × MetricFrame))
    (hp : c.parser body = .ok ms) (hres : convertLoop ms [] = .ok res) :
    c.Convert body = (some (res.map Prod.snd), none) ∧
      res.map Prod.fst = firstSeen (ms.map getFrameKey) := by
  constructor
  · unfold Converter.Convert
    rw [hp]
    simp only []
    rw [convertMetrics_eq_ok hres]
  · exact (convertLoop_spec hres).2

/-- Witness for C3 at a concrete batch. -/
theorem C3_order_stability_witness :
    (Converter.mk (fun _ => .ok [⟨"m", 5, [], [("x", FieldValue.int 1)]⟩])).Convert [] =
      (some ([("m_5", (⟨"m", [timeCol 5,
        ⟨"x", .nullableInt64, [], [some (.int 1)]⟩]⟩ : MetricFrame))].map Prod.snd),
        none) ∧
    [("m_5", (⟨"m", [timeCol 5,
      ⟨"x", .nullableInt64, [], [some (.int 1)]⟩]⟩ : MetricFrame))].map Prod.fst =
      firstSeen ([⟨"m", 5, [], [("x", FieldValue.int 1)]⟩].map getFrameKey) :=
  C3_order_stability _ [] _ _ rfl (by decide)

/-- C5: there is no partial-success mode — every Convert call returns
either tables and no error, or an error and no tables; and whenever
folding some record's fields fails (the per-field unknown-type,
no-converter and value-conversion errors of `extend` are the only such
failures), the whole batch is rejected with exactly that error, no matter
how many records were already folded nor what follows. -/
theorem C5_no_partial_emission :
    (∀ (c : Converter) (body : Bytes),
      ((c.Convert body).1 = none ∧ (c.Convert body).2.isSome = true) ∨
      ((c.Convert body).1.isSome = true ∧ (c.Convert body).2 = none)) ∧
    (∀ (pre : List Metric) (m : Metric) (rest : List Metric)
        (acc : List (String × MetricFrame)) (e : ConvErr),
      convertLoop pre [] = .ok acc → foldInto acc m = .error e →
      convertMetrics (pre ++ m :: rest) = .error e) := by
  constructor
  · intro c body
    unfold Converter.Convert
    cases hp : c.parser body with
    | error e => simp
    | ok ms =>
      simp only []
      cases hcm : convertMetrics ms with
      | error e => simp
      | ok frames => simp
  · intro pre m rest acc e h1 h2
    unfold convertMetrics
    rw [convertLoop_append pre (m :: rest) [], h1]
    simp only [convertLoop]
    rw [h2]

/-- Witness for C5: a batch whose single record carries a uint64 field
(no converter exists for it) is rejected wholesale. -/
theorem C5_no_partial_emission_witness :
    ((((Converter.mk (fun _ => .ok [])).Convert []).1 = none ∧
      ((Converter.mk (fun _ => .ok [])).Convert []).2.isSome = true) ∨
     (((Converter.mk (fun _ => .ok [])).Convert []).1.isSome = true ∧
      ((Converter.mk (fun _ => .ok [])).Convert []).2 = none)) ∧
    convertMetrics ([] ++ ⟨"m", 0, [], [("u", FieldValue.uint 3)]⟩ :: []) =
      .error (.noConverter "u" .nullableUint64) :=
  ⟨C5_no_partial_emission.1 (Converter.mk (fun _ => .ok [])) [],
   C5_no_partial_emission.2 [] ⟨"m", 0, [], [("u", FieldValue.uint 3)]⟩ [] []
     (.noConverter "u" .nullableUint64) rfl (by decide)⟩

/-- C6: a decoder failure makes Convert fail with a parse error carrying
the decoder's error unaltered and return no tables; the decoder's answer
for the batch fully determines the outcome (no retry). -/
theorem C6_parse_error (c : Converter) (body : Bytes) (e : String)
    (h : c.parser body = .error e) :
    c.Convert body = (none, some (.parse e)) := by
  unfold Converter.Convert
  rw [h]

/-- Witness for C6 with a concretely failing decoder. -/
theorem C6_parse_error_witness :
    (Converter.mk (fun _ => .error "bad line")).Convert [] =
      (none, some (.parse "bad line")) :=
  C6_parse_error _ [] "bad line" rfl

/-- C4: every field column folded into a table carries the nullable
variant of the semantic type determined by its value's tagged-union case,
and in every emitted table every column after the seeded time column has
one of the four nullable types — never a non-nullable type. -/
theorem C4_nullable_types (ms : List Metric) (frames : List MetricFrame)
    (h : convertMetrics ms = .ok frames) :
    (∀ (tags : List (String × String)) (f : String × FieldValue) (c : Column),
      colOf tags f = .ok c → c.typ = (fieldTypeFor f.2).nullableType) ∧
    ∀ fr ∈ frames, ∀ c ∈ fr.fields.tail,
      c.typ ∈ [FieldType.nullableString, FieldType.nullableFloat64,
        FieldType.nullableInt64, FieldType.nullableBool] := by
  refine ⟨fun tags f c hc => (colOf_ok hc).2.1, ?_⟩
  obtain ⟨res, hres, hframes⟩ := convertMetrics_ok_inv h
  subst hframes
  intro fr hfr c hcc
  obtain ⟨k, m0, hfw, hfr'⟩ := convertLoop_frames hres fr hfr
  rw [hfr'] at hcc
  simp only [List.tail_cons] at hcc
  obtain ⟨m, hm, f, hf, hcol⟩ := specCols_mem hres hcc
  exact (colOf_ok hcol).2.2.2.2

/-- Witness for C4 at a concrete batch. -/
theorem C4_nullable_types_witness :
    (∀ (tags : List (String × String)) (f : String × FieldValue) (c : Column),
      colOf tags f = .ok c → c.typ = (fieldTypeFor f.2).nullableType) ∧
    ∀ fr ∈ [(⟨"m", [timeCol 5,
        ⟨"x", .nullableInt64, [], [some (.int 1)]⟩]⟩ : MetricFrame)],
      ∀ c ∈ fr.fields.tail,
      c.typ ∈ [FieldType.nullableString, FieldType.nullableFloat64,
        FieldType.nullableInt64, FieldType.nullableBool] :=
  C4_nullable_types [⟨"m", 5, [], [("x", FieldValue.int 1)]⟩]
    [⟨"m", [timeCol 5, ⟨"x", .nullableInt64, [], [some (.int 1)]⟩]⟩]
    (by decide)

/-- C10: the per-time default mode builds only length-1 columns: in any
successful run every column of every emitted frame holds exactly one
value, and a frame's column count is one (the time column) plus the total
field count of the records folded under its key — a recurring key appends
further length-1 columns, never rows. -/
theorem C10_length_one_columns (ms : List Metric)
    (res : List (String × MetricFrame)) (h : convertLoop ms [] = .ok res) :
    convertMetrics ms = .ok (res.map Prod.snd) ∧
    (∀ fr ∈ res.map Prod.snd, ∀ c ∈ fr.fields, c.values.length = 1) ∧
    ∀ k fr, (k, fr) ∈ res →
      fr.fields.length =
        1 + ((recordsFor ms k).map (fun m => m.fields.length)).sum := by
  refine ⟨convertMetrics_eq_ok h, ?_, ?_⟩
  · intro fr hfr c hc
    obtain ⟨k, m0, hfw, hfr'⟩ := convertLoop_frames h fr hfr
    rw [hfr'] at hc
    simp only [] at hc
    rcases List.mem_cons.mp hc with h1 | h2
    · rw [h1]; rfl
    · obtain ⟨m, hm, f, hf, hcol⟩ := specCols_mem h h2
      exact (colOf_ok hcol).2.2.2.1
  · intro k fr hmem
    obtain ⟨m0, hfw, hfr'⟩ := res_entry_shape h hmem
    rw [hfr']
    simp only [List.length_cons]
    rw [specCols_length h k]
    omega

/-- Witness for C10: two records under one key give one frame with three
length-1 columns. -/
theorem C10_length_one_columns_witness :
    convertMetrics
        [⟨"m", 5, [], [("x", FieldValue.int 1)]⟩,
         ⟨"m", 5, [], [("y", FieldValue.int 2)]⟩] =
      .ok ([("m_5", (⟨"m", [timeCol 5,
        ⟨"x", .nullableInt64, [], [some (.int 1)]⟩,
        ⟨"y", .nullableInt64, [], [some (.int 2)]⟩]⟩ : MetricFrame))].map
          Prod.snd) ∧
    (∀ fr ∈ [("m_5", (⟨"m", [timeCol 5,
        ⟨"x", .nullableInt64, [], [some (.int 1)]⟩,
        ⟨"y", .nullableInt64, [], [some (.int 2)]⟩]⟩ : MetricFrame))].map
          Prod.snd,
      ∀ c ∈ fr.fields, c.values.length = 1) ∧
    ∀ k fr, (k, fr) ∈ [("m_5", (⟨"m", [timeCol 5,
        ⟨"x", .nullableInt64, [], [some (.int 1)]⟩,
        ⟨"y", .nullableInt64, [], [some (.int 2)]⟩]⟩ : MetricFrame))] →
      fr.fields.length =
        1 + ((recordsFor
          [⟨"m", 5, [], [("x", FieldValue.int 1)]⟩,
           ⟨"m", 5, [], [("y", FieldValue.int 2)]⟩] k).map
            (fun m => m.fields.length)).sum :=
  C10_length_one_columns
    [⟨"m", 5, [], [("x", FieldValue.int 1)]⟩,
     ⟨"m", 5, [], [("y", FieldValue.int 2)]⟩]
    [("m_5", ⟨"m", [timeCol 5,
      ⟨"x", .nullableInt64, [], [some (.int 1)]⟩,
      ⟨"y", .nullableInt64, [], [some (.int 2)]⟩]⟩)]
    (by decide)

/-- C7 counterexample: two records under the same per-time key both
carrying field "x" yield one frame whose non-time column names are
["x", "x"], so column names are not unique apart from the implicit time
column — refuting the uniqueness half of the claim on this input. -/
theorem C7_counterexample :
    convertMetrics
        [⟨"cpu", 5, [], [("x", FieldValue.int 1)]⟩,
         ⟨"cpu", 5, [], [("x", FieldValue.int 2)]⟩] =
      .ok [⟨"cpu", [timeCol 5,
        ⟨"x", .nullableInt64, [], [some (.int 1)]⟩,
        ⟨"x", .nullableInt64, [], [some (.int 2)]⟩]⟩] ∧
    ¬ ((([timeCol 5,
        ⟨"x", .nullableInt64, [], [some (.int 1)]⟩,
        ⟨"x", .nullableInt64, [], [some (.int 2)]⟩] : List Column).drop 1).map
          Column.name).Nodup :=
  ⟨by decide, by decide⟩

/-- C7 (amended): in every emitted table the time column is first; the
remaining column names are unique provided the records folded under the
table's group key have globally distinct field names (when a field name
recurs under one key the source emits duplicate columns instead). -/
theorem C7_time_first_names_unique (ms : List Metric)
    (res : List (String × MetricFrame)) (h : convertLoop ms [] = .ok res) :
    convertMetrics ms = .ok (res.map Prod.snd) ∧
    (∀ fr ∈ res.map Prod.snd, ∃ t, fr.fields.head? = some (timeCol t)) ∧
    ∀ k fr, (k, fr) ∈ res →
      (((recordsFor ms k).map (fun m => m.fields.map Prod.fst)).flatten).Nodup →
      ((fr.fields.drop 1).map Column.name).Nodup := by
  refine ⟨convertMetrics_eq_ok h, ?_, ?_⟩
  · intro fr hfr
    obtain ⟨k, m0, hfw, hfr'⟩ := convertLoop_frames h fr hfr
    rw [hfr']
    exact ⟨m0.time, rfl⟩
  · intro k fr hmem hnd
    obtain ⟨m0, hfw, hfr'⟩ := res_entry_shape h hmem
    rw [hfr']
    show (((timeCol m0.time :: specCols ms k).drop 1).map Column.name).Nodup
    simp only [List.drop_succ_cons, List.drop_zero]
    rw [specCols_names h k]
    exact hnd

/-- Witness for the amended C7 at a concrete batch with distinct field
names. -/
theorem C7_time_first_names_unique_witness :
    convertMetrics [⟨"m", 5, [], [("a", FieldValue.int 1),
        ("b", FieldValue.bool true)]⟩] =
      .ok ([("m_5", (⟨"m", [timeCol 5,
        ⟨"a", .nullableInt64, [], [some (.int 1)]⟩,
        ⟨"b", .nullableBool, [], [some (.bool true)]⟩]⟩ : MetricFrame))].map
          Prod.snd) ∧
    (∀ fr ∈ [("m_5", (⟨"m", [timeCol 5,
        ⟨"a", .nullableInt64, [], [some (.int 1)]⟩,
        ⟨"b", .nullableBool, [], [some (.bool true)]⟩]⟩ : MetricFrame))].map
          Prod.snd, ∃ t, fr.fields.head? = some (timeCol t)) ∧
    ∀ k fr, (k, fr) ∈ [("m_5", (⟨"m", [timeCol 5,
        ⟨"a", .nullableInt64, [], [some (.int 1)]⟩,
        ⟨"b", .nullableBool, [], [some (.bool true)]⟩]⟩ : MetricFrame))] →
      (((recordsFor [⟨"m", 5, [], [("a", FieldValue.int 1),
          ("b", FieldValue.bool true)]⟩] k).map
            (fun m => m.fields.map Prod.fst)).flatten).Nodup →
      ((fr.fields.drop 1).map Column.name).Nodup :=
  C7_time_first_names_unique
    [⟨"m", 5, [], [("a", FieldValue.int 1), ("b", FieldValue.bool true)]⟩]
    [("m_5", ⟨"m", [timeCol 5,
      ⟨"a", .nullableInt64, [], [some (.int 1)]⟩,
      ⟨"b", .nullableBool, [], [some (.bool true)]⟩]⟩)]
    (by decide)

/-- C8 counterexample: a single record with fields (a, b) versus the same
record with fields listed (b, a): both batches convert successfully but
the serialized tables differ, because column order follows the record's
field order; the outputs agree only up to column permutation. -/
theorem C8_counterexample :
    (convertMetrics [⟨"m", 1, [],
        [("a", FieldValue.int 1), ("b", FieldValue.str "s")]⟩]).isOk = true ∧
    (convertMetrics [⟨"m", 1, [],
        [("b", FieldValue.str "s"), ("a", FieldValue.int 1)]⟩]).isOk = true ∧
    (exOr (convertMetrics [⟨"m", 1, [],
        [("a", FieldValue.int 1), ("b", FieldValue.str "s")]⟩]) []).map
          serializeFrame ≠
      (exOr (convertMetrics [⟨"m", 1, [],
        [("b", FieldValue.str "s"), ("a", FieldValue.int 1)]⟩]) []).map
          serializeFrame :=
  ⟨by decide, by decide, by decide⟩

/-- C8 (amended): for a single record, permuting its field list yields a
frame with the same name, the same time column and the matching
permutation of the field columns; the serialized outputs coincide exactly
when the decoder presents the fields in identical order. -/
theorem C8_field_order (m1 m2 : Metric) (hn : m1.name = m2.name)
    (ht : m1.time = m2.time) (htg : m1.tags = m2.tags)
    (hp : m1.fields.Perm m2.fields)
    (f1 f2 : List MetricFrame)
    (h1 : convertMetrics [m1] = .ok f1) (h2 : convertMetrics [m2] = .ok f2) :
    ∃ fr1 fr2, f1 = [fr1] ∧ f2 = [fr2] ∧ fr1.key = fr2.key ∧
      fr1.fields.Perm fr2.fields := by
  obtain ⟨cols1, hc1, hf1⟩ := convertMetrics_single h1
  obtain ⟨cols2, hc2, hf2⟩ := convertMetrics_single h2
  refine ⟨_, _, hf1, hf2, hn, ?_⟩
  have e1 : cols1 = m1.fields.map (fun f => exOr (colOf m1.tags f) default) :=
    mapME_ok_eq_map default hc1
  have e2 : cols2 = m2.fields.map (fun f => exOr (colOf m2.tags f) default) :=
    mapME_ok_eq_map default hc2
  rw [← htg] at e2
  have hperm : cols1.Perm cols2 := by
    rw [e1, e2]
    exact hp.map _
  show (timeCol m1.time :: cols1).Perm (timeCol m2.time :: cols2)
  rw [ht]
  exact List.Perm.cons _ hperm

/-- Witness for the amended C8 at a concrete pair of field orders. -/
theorem C8_field_order_witness :
    ∃ fr1 fr2,
      exOr (convertMetrics [⟨"m", 1, [],
        [("a", FieldValue.int 1), ("b", FieldValue.str "s")]⟩]) [] = [fr1] ∧
      exOr (convertMetrics [⟨"m", 1, [],
        [("b", FieldValue.str "s"), ("a", FieldValue.int 1)]⟩]) [] = [fr2] ∧
      fr1.key = fr2.key ∧ fr1.fields.Perm fr2.fields :=
  C8_field_order
    ⟨"m", 1, [], [("a", FieldValue.int 1), ("b", FieldValue.str "s")]⟩
    ⟨"m", 1, [], [("b", FieldValue.str "s"), ("a", FieldValue.int 1)]⟩
    rfl rfl rfl (by decide) _ _ (by decide) (by decide)

/-! ### The option-enabled converter, modelled from the spec

The options `useLabelsColumn` and `floatNumbers` and their handling are
code of this repository that is not under `src/` (the repository's tests
reference `WithUseLabelsColumn` and `WithFloatNumbers`, but the copy of
`convert.go` in `src/` predates them), so this part is modelled from the
spec's sections 3, 4.1 and 8. -/

/-- Modelled from the spec: the two converter options of `NewConverter`,
both defaulting to false. -/
structure ConvertCfg where
  useLabelsColumn : Bool := false
  floatNumbers : Bool := false
  deriving DecidableEq, Repr

/-- Modelled from the spec: the resolved semantic type of a value — as
`fieldTypeFor`, except that with `floatNumbers` enabled an integer value
targets float64 (spec section 4.1 step 5). -/
def resolvedType (cfg : ConvertCfg) (v : FieldValue) : FieldType :=
  if cfg.floatNumbers ∧ fieldTypeFor v = .int64 then .float64
  else fieldTypeFor v

/-- Modelled from the spec: the type-conflict test — true when a column
of the same name was already established with a different resolved type
(the implicit time column is not a field column and is skipped). -/
def conflictsWith (existing : List Column) (key : String)
    (ftn : FieldType) : Bool :=
  existing.any (fun c => c.typ ≠ FieldType.time && c.name = key && c.typ ≠ ftn)

/-- Modelled from the spec: the per-field body of the option-aware fold:
resolve the target type honouring `floatNumbers`, reject unknown types,
fail fatally with the distinguished type-conflict fault when the
accumulated schema disagrees, then convert and build the length-1
column. -/
def colOfCfg (cfg : ConvertCfg) (existing : List Column)
    (tags : List (String × String)) (f : String × FieldValue) :
    Except ConvErr Column :=
  if resolvedType cfg f.2 = .unknown then .error .unknownType
  else if conflictsWith existing f.1 (resolvedType cfg f.2).nullableType then
    .error (.typeConflict f.1)
  else
    match converterFor (resolvedType cfg f.2).nullableType with
    | none => .error (.noConverter f.1 (resolvedType cfg f.2).nullableType)
    | some conv =>
      match conv f.2 with
      | .error e => .error (.convertFail e)
      | .ok v => .ok ⟨f.1, (resolvedType cfg f.2).nullableType, tags, [v]⟩

/-- Modelled from the spec: fold one record's fields into the accumulated
columns with conflict checking. -/
def extendCheckedLoop (cfg : ConvertCfg) (tags : List (String × String)) :
    List Column → List (String × FieldValue) → Except ConvErr (List Column)
  | acc, [] => .ok acc
  | acc, f :: fs =>
    match colOfCfg cfg acc tags f with
    | .error e => .error e
    | .ok c => extendCheckedLoop cfg tags (acc ++ [c]) fs

/-- Modelled from the spec: the option-aware `extend`. -/
def MetricFrame.extendChecked (cfg : ConvertCfg) (s : MetricFrame)
    (m : Metric) : Except ConvErr MetricFrame :=
  match extendCheckedLoop cfg m.tags s.fields m.fields with
  | .error e => .error e
  | .ok cols => .ok ⟨s.key, cols⟩

/-- Modelled from the spec: one iteration of the option-aware per-time
record loop. -/
def foldIntoChecked (cfg : ConvertCfg) (acc : List (String × MetricFrame))
    (m : Metric) : Except ConvErr (List (String × MetricFrame)) :=
  match lookupA acc (getFrameKey m) with
  | some frame =>
    match frame.extendChecked cfg m with
    | .error e => .error e
    | .ok fr => .ok (updateA acc (getFrameKey m) fr)
  | none =>
    match (newMetricFrame m).extendChecked cfg m with
    | .error e => .error e
    | .ok fr => .ok (acc ++ [(getFrameKey m, fr)])

/-- Modelled from the spec: the option-aware per-time record loop. -/
def convertLoopChecked (cfg : ConvertCfg) :
    List Metric → List (String × MetricFrame) →
      Except ConvErr (List (String × MetricFrame))
  | [], acc => .ok acc
  | m :: rest, acc =>
    match foldIntoChecked cfg acc m with
    | .error e => .error e
    | .ok acc' => convertLoopChecked cfg rest acc'

/-- Modelled from the spec: the option-aware per-time conversion. -/
def convertMetricsChecked (cfg : ConvertCfg) (ms : List Metric) :
    Except ConvErr (List MetricFrame) :=
  match convertLoopChecked cfg ms [] with
  | .error e => .error e
  | .ok acc => .ok (acc.map Prod.snd)

/-- Modelled from the spec: distinct field names of a group across all
its records, in first-seen order (wide mode). -/
def wideFieldNames (g : List Metric) : List String :=
  firstSeen ((g.map (fun m => m.fields.map Prod.fst)).flatten)

/-- Modelled from the spec: distinct tag keys of a group across all its
records, in first-seen order (wide mode). -/
def wideTagKeys (g : List Metric) : List String :=
  firstSeen ((g.map (fun m => m.tags.map Prod.fst)).flatten)

/-- Modelled from the spec: the resolved column type of field `fn` across
a group — every occurrence must resolve to the same type, otherwise the
fatal type-conflict fault. -/
def wideResolve (cfg : ConvertCfg) (g : List Metric) (fn : String) :
    Except ConvErr FieldType :=
  match (g.map (fun m => (m.fields.filter (fun f => f.1 = fn)).map
      (fun f => resolvedType cfg f.2))).flatten with
  | [] => .error .unknownType
  | t :: ts =>
    if t = .unknown then .error .unknownType
    else if ts.all (fun u => u = t) then .ok t.nullableType
    else .error (.typeConflict fn)

/-- Modelled from the spec: the cell field `fn` contributes for record
`m` in wide mode — null when the record lacks the field. -/
def wideCellOf (conv : FieldValue → Except String (Option Cell))
    (fn : String) (m : Metric) : Except ConvErr (Option Cell) :=
  match lookupA m.fields fn with
  | none => .ok none
  | some v =>
    match conv v with
    | .error e => .error (.convertFail e)
    | .ok c => .ok c

/-- Modelled from the spec: the wide-mode column of one field name, one
row per record of the group. -/
def wideFieldCol (cfg : ConvertCfg) (g : List Metric) (fn : String) :
    Except ConvErr Column :=
  match wideResolve cfg g fn with
  | .error e => .error e
  | .ok tn =>
    match converterFor tn with
    | none => .error (.noConverter fn tn)
    | some conv =>
      match mapME (wideCellOf conv fn) g with
      | .error e => .error e
      | .ok vals => .ok ⟨fn, tn, [], vals⟩

/-- Modelled from the spec: the wide-mode time column, one row per
record. -/
def timeColWide (g : List Metric) : Column :=
  ⟨"time", .time, [], g.map (fun m => some (.time m.time))⟩

/-- Modelled from the spec: a wide-mode tag column, null for the rows
lacking the tag. -/
def tagCol (g : List Metric) (k : String) : Column :=
  ⟨k, .nullableString, [], g.map (fun m => (lookupA m.tags k).map Cell.str)⟩

/-- Modelled from the spec: rendering of a row's tag set for the
synthetic labels column. -/
def renderTags (tags : List (String × String)) : String :=
  String.intercalate "," (tags.map (fun p => p.1 ++ "=" ++ p.2))

/-- Modelled from the spec: the synthetic labels column. -/
def labelsCol (g : List Metric) : Column :=
  ⟨"labels", .string, [], g.map (fun m => some (.str (renderTags m.tags)))⟩

/-- Modelled from the spec: the one wide table of a metric-name group:
the time column first, then one column per distinct field name, one per
distinct tag key, and the synthetic labels column. -/
def buildWideFrame (cfg : ConvertCfg) (g : List Metric) :
    Except ConvErr MetricFrame :=
  match mapME (wideFieldCol cfg g) (wideFieldNames g) with
  | .error e => .error e
  | .ok fcols =>
    .ok ⟨(g.head?.map Metric.name).getD "",
      timeColWide g ::
        (fcols ++ (wideTagKeys g).map (tagCol g) ++ [labelsCol g])⟩

/-- Modelled from the spec: wide-mode conversion — one table per metric
name, in first-seen name order. -/
def convertWide (cfg : ConvertCfg) (ms : List Metric) :
    Except ConvErr (List MetricFrame) :=
  mapME (fun n => buildWideFrame cfg (ms.filter (fun m => m.name = n)))
    (firstSeen (ms.map Metric.name))

/-- Modelled from the spec: the full option-aware conversion of a decoded
batch: wide mode when `useLabelsColumn` is set, otherwise the per-time
grouping with the `floatNumbers`-aware, conflict-checking fold. -/
def convertModelled (cfg : ConvertCfg) (ms : List Metric) :
    Except ConvErr (List MetricFrame) :=
  if cfg.useLabelsColumn then convertWide cfg ms
  else convertMetricsChecked cfg ms

/-! ### Facts about the modelled option-aware converter -/

theorem foldl_insertKey_fixed :
    ∀ (l init : List String), (∀ k ∈ l, k ∈ init) →
      l.foldl insertKey init = init := by
  intro l
  induction l with
  | nil => intro init _; rfl
  | cons a l ih =>
    intro init h
    simp only [List.foldl_cons]
    have ha : insertKey init a = init := by
      unfold insertKey
      rw [if_pos (h a (List.mem_cons_self a l))]
    rw [ha]
    exact ih init (fun k hk => h k (List.mem_cons_of_mem a hk))

theorem firstSeen_all_eq {n : String} :
    ∀ (l : List String), (∀ k ∈ l, k = n) → l ≠ [] → firstSeen l = [n] := by
  intro l h hne
  cases l with
  | nil => exact absurd rfl hne
  | cons a l' =>
    have ha : a = n := h a (List.mem_cons_self a l')
    unfold firstSeen
    simp only [List.foldl_cons]
    have h1 : insertKey [] a = [a] := rfl
    rw [h1, ha]
    exact foldl_insertKey_fixed l' [n] (fun k hk =>
      List.mem_singleton.mpr (h k (List.mem_cons_of_mem a hk)))

theorem wideFieldCol_ok {cfg : ConvertCfg} {g : List Metric} {fn : String}
    {c : Column} (h : wideFieldCol cfg g fn = .ok c) :
    c.name = fn ∧ c.values.length = g.length := by
  unfold wideFieldCol at h
  cases hr : wideResolve cfg g fn with
  | error e => rw [hr] at h; cases h
  | ok tn =>
    rw [hr] at h
    simp only [] at h
    cases hcv : converterFor tn with
    | none => rw [hcv] at h; cases h
    | some conv =>
      rw [hcv] at h
      simp only [] at h
      cases hm : mapME (wideCellOf conv fn) g with
      | error e => rw [hm] at h; cases h
      | ok vals =>
        rw [hm] at h
        simp only [] at h
        injection h with h'
        rw [← h']
        exact ⟨rfl, mapME_ok_length hm⟩

/-- C2 (settled against the spec-modelled option-aware converter): for a
batch of two records under one per-time group key where the first gives
field `k` an integer value and the second gives `k` a float value,
Convert with `floatNumbers` disabled aborts with the distinguished
type-conflict fault, and with `floatNumbers` enabled it succeeds with
every `k` column typed nullable-float64. -/
theorem C2_type_conflict (name : String) (t : Nat)
    (tg1 tg2 : List (String × String)) (k : String) (i : Int) (x : Rat) :
    convertModelled ⟨false, false⟩
        [⟨name, t, tg1, [(k, .int i)]⟩, ⟨name, t, tg2, [(k, .float x)]⟩] =
      .error (.typeConflict k) ∧
    convertModelled ⟨false, true⟩
        [⟨name, t, tg1, [(k, .int i)]⟩, ⟨name, t, tg2, [(k, .float x)]⟩] =
      .ok [⟨name, [timeCol t,
        ⟨k, .nullableFloat64, tg1, [some (.float (i : Rat))]⟩,
        ⟨k, .nullableFloat64, tg2, [some (.float x)]⟩]⟩] := by
  constructor <;>
    simp [convertModelled, convertMetricsChecked, convertLoopChecked,
      foldIntoChecked, MetricFrame.extendChecked, extendCheckedLoop, colOfCfg,
      conflictsWith, resolvedType, fieldTypeFor, FieldType.nullableType,
      converterFor, jsonValueToNullableInt64, jsonValueToNullableFloat64,
      newMetricFrame, timeCol, lookupA, updateA, getFrameKey]

/-- C9 (settled against the spec-modelled wide mode): with
`useLabelsColumn` enabled, a nonempty batch whose records all share one
metric name (here at pairwise distinct timestamps) yields exactly one
table with one row per record, whose columns are the time column, one
column per distinct field name, one column per distinct tag key, and the
synthetic labels column. -/
theorem C9_wide_consolidation (n : String) (ms : List Metric)
    (frames : List MetricFrame) (hne : ms ≠ [])
    (hn : ∀ m ∈ ms, m.name = n) (hd : (ms.map Metric.time).Nodup)
    (hok : convertModelled ⟨true, false⟩ ms = .ok frames) :
    frames.length = 1 ∧
    ∀ fr ∈ frames,
      fr.fields.length =
        2 + (wideFieldNames ms).length + (wideTagKeys ms).length ∧
      fr.fields.map Column.name =
        "time" :: (wideFieldNames ms ++ wideTagKeys ms ++ ["labels"]) ∧
      ∀ c ∈ fr.fields, c.values.length = ms.length := by
  replace hok : convertWide ⟨true, false⟩ ms = .ok frames := hok
  unfold convertWide at hok
  have hfs : firstSeen (ms.map Metric.name) = [n] := by
    apply firstSeen_all_eq
    · intro k hk
      obtain ⟨m, hm, hmn⟩ := List.mem_map.mp hk
      rw [← hmn]
      exact hn m hm
    · intro hnil
      rw [List.map_eq_nil_iff] at hnil
      exact hne hnil
  rw [hfs] at hok
  obtain ⟨fr, frames', hg, hrest, hfr⟩ := mapME_ok_cons hok
  have hfe : frames' = [] := by
    simp only [mapME] at hrest
    injection hrest with h'
    exact h'.symm
  subst hfe
  subst hfr
  have hflt : ms.filter (fun m => m.name = n) = ms := by
    rw [List.filter_eq_self]
    intro m hm
    simp [hn m hm]
  rw [hflt] at hg
  unfold buildWideFrame at hg
  cases hmc : mapME (wideFieldCol ⟨true, false⟩ ms) (wideFieldNames ms) with
  | error e => rw [hmc] at hg; cases hg
  | ok fcols =>
    rw [hmc] at hg
    simp only [] at hg
    injection hg with hg'
    refine ⟨rfl, ?_⟩
    intro fr' hfr'
    rw [List.mem_singleton] at hfr'
    subst hfr'
    rw [← hg']
    have hfnames : fcols.map Column.name = wideFieldNames ms := by
      rw [mapME_ok_eq_map default hmc, List.map_map]
      have hpt : ∀ fn ∈ wideFieldNames ms,
          (Column.name ∘ fun a =>
            exOr (wideFieldCol ⟨true, false⟩ ms a) default) fn = fn := by
        intro fn hfn
        obtain ⟨c, hc⟩ := mapME_ok_forall hmc fn hfn
        simp only [Function.comp]
        rw [hc]
        exact (wideFieldCol_ok hc).1
      rw [List.map_congr_left hpt]
      simp
    have hflen := mapME_ok_length hmc
    refine ⟨?_, ?_, ?_⟩
    · show (timeColWide ms ::
          (fcols ++ (wideTagKeys ms).map (tagCol ms) ++ [labelsCol ms])).length =
        2 + (wideFieldNames ms).length + (wideTagKeys ms).length
      simp only [List.length_cons, List.length_append, List.length_map,
        List.length_nil, hflen]
      omega
    · show (timeColWide ms ::
          (fcols ++ (wideTagKeys ms).map (tagCol ms) ++ [labelsCol ms])).map
            Column.name =
        "time" :: (wideFieldNames ms ++ wideTagKeys ms ++ ["labels"])
      simp only [List.map_cons, List.map_append, List.map_map, timeColWide,
        tagCol, labelsCol, Function.comp]
      rw [hfnames]
      have htg : ∀ tk ∈ wideTagKeys ms, (Column.name ∘ tagCol ms) tk = tk :=
        fun tk _ => rfl
      rw [List.map_congr_left htg]
      simp
    · intro c hc
      rcases List.mem_cons.mp hc with h1 | h2
      · rw [h1]
        simp [timeColWide]
      · rcases List.mem_append.mp h2 with h3 | h4
        · rcases List.mem_append.mp h3 with h5 | h6
          · obtain ⟨fn, hfn, hwc⟩ := mapME_ok_mem hmc c h5
            exact (wideFieldCol_ok hwc).2
          · obtain ⟨tk, htk, hce⟩ := List.mem_map.mp h6
            rw [← hce]
            simp [tagCol]
        · rw [List.mem_singleton] at h4
          rw [h4]
          simp [labelsCol]

/-- Witness for C9 at a concrete two-record batch. -/
theorem C9_wide_consolidation_witness :
    ([(⟨"cpu", [⟨"time", .time, [], [some (.time 1), some (.time 2)]⟩,
        ⟨"v", .nullableInt64, [], [some (.int 1), some (.int 2)]⟩,
        ⟨"h", .nullableString, [], [some (.str "a"), some (.str "b")]⟩,
        ⟨"labels", .string, [],
          [some (.str "h=a"), some (.str "h=b")]⟩]⟩ : MetricFrame)]).length = 1 ∧
    ∀ fr ∈ [(⟨"cpu", [⟨"time", .time, [], [some (.time 1), some (.time 2)]⟩,
        ⟨"v", .nullableInt64, [], [some (.int 1), some (.int 2)]⟩,
        ⟨"h", .nullableString, [], [some (.str "a"), some (.str "b")]⟩,
        ⟨"labels", .string, [],
          [some (.str "h=a"), some (.str "h=b")]⟩]⟩ : MetricFrame)],
      fr.fields.length =
        2 + (wideFieldNames [⟨"cpu", 1, [("h", "a")], [("v", FieldValue.int 1)]⟩,
          ⟨"cpu", 2, [("h", "b")], [("v", FieldValue.int 2)]⟩]).length +
          (wideTagKeys [⟨"cpu", 1, [("h", "a")], [("v", FieldValue.int 1)]⟩,
            ⟨"cpu", 2, [("h", "b")], [("v", FieldValue.int 2)]⟩]).length ∧
      fr.fields.map Column.name =
        "time" :: (wideFieldNames [⟨"cpu", 1, [("h", "a")], [("v", FieldValue.int 1)]⟩,
            ⟨"cpu", 2, [("h", "b")], [("v", FieldValue.int 2)]⟩] ++
          wideTagKeys [⟨"cpu", 1, [("h", "a")], [("v", FieldValue.int 1)]⟩,
            ⟨"cpu", 2, [("h", "b")], [("v", FieldValue.int 2)]⟩] ++ ["labels"]) ∧
      ∀ c ∈ fr.fields, c.values.length =
        ([(⟨"cpu", 1, [("h", "a")], [("v", FieldValue.int 1)]⟩ : Metric),
          ⟨"cpu", 2, [("h", "b")], [("v", FieldValue.int 2)]⟩]).length :=
  C9_wide_consolidation "cpu"
    [⟨"cpu", 1, [("h", "a")], [("v", FieldValue.int 1)]⟩,
     ⟨"cpu", 2, [("h", "b")], [("v", FieldValue.int 2)]⟩]
    [⟨"cpu", [⟨"time", .time, [], [some (.time 1), some (.time 2)]⟩,
      ⟨"v", .nullableInt64, [], [some (.int 1), some (.int 2)]⟩,
      ⟨"h", .nullableString, [], [some (.str "a"), some (.str "b")]⟩,
      ⟨"labels", .string, [], [some (.str "h=a"), some (.str "h=b")]⟩]⟩]
    (by decide) (by decide) (by decide) (by decide)

end GrafanaLive
